import Mathlib

/-!
Verification of the signal-conditioning and frequency-extraction engine of the
embedded-systems biosignal project (`dsp_filters.py`, `fft_analyzer.py`,
`main.py`).  The Python code is shallowly embedded: buffers of float samples
become `List ℚ` (or `List ℝ` where the computation is genuinely transcendental),
fallible operations return `Except DSPError`, and the scipy/numpy library
routines the code delegates to are translated from their documented semantics
(noted on each definition).
-/

/-- Error taxonomy of the filter bank (spec §7): invalid parameters
(cutoff at or above Nyquist, even median window, empty kernel) versus
insufficient data (buffer shorter than the zero-phase filter's padding). -/
inductive DSPError where
  | invalidParameter
  | insufficientData
deriving DecidableEq, Repr

/-- Dot product of two sample vectors, as `np.dot` on equal-length arrays. -/
def dot (a b : List ℚ) : ℚ :=
  (List.zipWith (· * ·) a b).sum

/-- Arithmetic mean as `np.mean` (sum divided by length; rational division by
zero is total and returns 0, matching the only use sites, which guard the
zero-length/zero-mean case). -/
def listMean (l : List ℚ) : ℚ :=
  l.sum / l.length

/-- Maximum of a sample buffer, as `np.max` on a nonempty array. -/
def listMax : List ℚ → ℚ
  | [] => 0
  | x :: xs => xs.foldl max x

/- ------------------------------------------------------------------
   AdaptiveFilter (dsp_filters.py lines 138-177): LMS adaptive noise
   canceller with weight vector of length `filter_length` and step size
   `step_size`.
   ------------------------------------------------------------------ -/

/-- The reference window `reference_noise[i-L:i][::-1]` of
`AdaptiveFilter.filter`: the `L` reference samples before index `i`,
reversed so the most recent sample comes first. -/
def lmsWindow (ref : List ℚ) (L i : ℕ) : List ℚ :=
  ((ref.drop (i - L)).take L).reverse

/-- One iteration of the loop body of `AdaptiveFilter.filter`: compute the
estimated noise `np.dot(self.weights, x)`, the error
`primary_signal[i] - estimated_noise`, and the LMS update
`self.weights += 2 * self.step_size * error * x` (elementwise over the
length-`L` weight and window vectors).  Returns the error (the output
sample) together with the updated weights. -/
def lmsStep (μ : ℚ) (prim ref : List ℚ) (L : ℕ) (w : List ℚ) (i : ℕ) : ℚ × List ℚ :=
  let x := lmsWindow ref L i
  let e := prim.getD i 0 - dot w x
  (e, List.zipWith (fun wj xj => wj + 2 * μ * e * xj) w x)

lemma lmsWindow_length (r : List ℚ) (L i : ℕ) (h1 : L ≤ i) (h2 : i ≤ r.length) :
    (lmsWindow r L i).length = L := by
  unfold lmsWindow
  simp only [List.length_reverse, List.length_take, List.length_drop]
  omega

namespace AdaptiveFilter

/-- `AdaptiveFilter.filter(primary_signal, reference_noise)`: output starts as
`np.zeros(n)`; for `i in range(self.filter_length, n)` the loop writes the
error into `output[i]` and updates the weights.  The embedding returns the
output buffer together with the final weight vector (the mutated
`self.weights`). -/
def filter (μ : ℚ) (L : ℕ) (w0 : List ℚ) (primary reference : List ℚ) :
    List ℚ × List ℚ :=
  (List.range' L (primary.length - L)).foldl
    (fun acc i =>
      let s := lmsStep μ primary reference L acc.2 i
      (acc.1.set i s.1, s.2))
    (List.replicate primary.length 0, w0)

/-- The weight vector held by the canceller after the loop of
`AdaptiveFilter.filter` has processed indices `L, L+1, …, i-1`
(so `weightsAt … L` is the initial vector and `weightsAt … n` the final one). -/
def weightsAt (μ : ℚ) (L : ℕ) (w0 : List ℚ) (primary reference : List ℚ) (i : ℕ) :
    List ℚ :=
  (List.range' L (i - L)).foldl
    (fun w j => (lmsStep μ primary reference L w j).2) w0

/-- The error computed at loop index `i` of `AdaptiveFilter.filter`:
`primary[i]` minus the dot product of the weights current at step `i`
with the reference window at `i`. -/
def errAt (μ : ℚ) (L : ℕ) (w0 : List ℚ) (primary reference : List ℚ) (i : ℕ) : ℚ :=
  primary.getD i 0 - dot (weightsAt μ L w0 primary reference i) (lmsWindow reference L i)

lemma weightsAt_init (μ : ℚ) (L : ℕ) (w0 : List ℚ) (p r : List ℚ) {i : ℕ}
    (h : i ≤ L) : weightsAt μ L w0 p r i = w0 := by
  unfold weightsAt
  rw [Nat.sub_eq_zero_of_le h]
  rfl

lemma weightsAt_succ (μ : ℚ) (L : ℕ) (w0 : List ℚ) (p r : List ℚ) {i : ℕ}
    (h : L ≤ i) :
    weightsAt μ L w0 p r (i + 1) =
      (lmsStep μ p r L (weightsAt μ L w0 p r i) i).2 := by
  unfold weightsAt
  have h1 : i + 1 - L = (i - L) + 1 := by omega
  rw [h1, List.range'_1_concat, List.foldl_append]
  have h2 : L + (i - L) = i := by omega
  rw [h2]
  rfl

/-- The fold of `AdaptiveFilter.filter` over the first `m` loop indices:
the running weights equal `weightsAt (L+m)`, the output keeps length `n`,
and each output sample is the error of its own step (or the initial zero
where the loop has not written). -/
lemma run_spec (μ : ℚ) (L : ℕ) (w0 : List ℚ) (p r : List ℚ) (m : ℕ)
    (hm : L + m ≤ p.length) :
    ((List.range' L m).foldl
        (fun acc i =>
          let s := lmsStep μ p r L acc.2 i
          (acc.1.set i s.1, s.2))
        (List.replicate p.length 0, w0)).2 = weightsAt μ L w0 p r (L + m) ∧
    ((List.range' L m).foldl
        (fun acc i =>
          let s := lmsStep μ p r L acc.2 i
          (acc.1.set i s.1, s.2))
        (List.replicate p.length 0, w0)).1.length = p.length ∧
    ∀ i < p.length,
      ((List.range' L m).foldl
        (fun acc i =>
          let s := lmsStep μ p r L acc.2 i
          (acc.1.set i s.1, s.2))
        (List.replicate p.length 0, w0)).1.getD i 0 =
      if L ≤ i ∧ i < L + m then errAt μ L w0 p r i else 0 := by
  induction m with
  | zero =>
    refine ⟨by simp [weightsAt_init], by simp, ?_⟩
    intro i hi
    simp only [List.range', List.foldl_nil]
    rw [if_neg (by omega)]
    simp [List.getD, List.getElem?_replicate, hi]
  | succ m ih =>
    have hm' : L + m ≤ p.length := by omega
    obtain ⟨ihw, ihl, ihg⟩ := ih hm'
    rw [List.range'_1_concat, List.foldl_append, List.foldl_cons, List.foldl_nil]
    set resm := (List.range' L m).foldl
        (fun acc i =>
          let s := lmsStep μ p r L acc.2 i
          (acc.1.set i s.1, s.2))
        (List.replicate p.length 0, w0) with hres
    refine ⟨?_, ?_, ?_⟩
    · simp only
      rw [ihw, ← weightsAt_succ μ L w0 p r (by omega : L ≤ L + m), Nat.add_assoc]
    · simpa using ihl
    · intro i hi
      simp only
      by_cases hcase : i = L + m
      · subst hcase
        have hlt : L + m < resm.1.length := by rw [ihl]; omega
        rw [List.getD_eq_getElem _ _ (by simpa using hlt),
          List.getElem_set_self (by simpa using hlt)]
        rw [if_pos (by omega)]
        simp only [lmsStep, ihw]
        rfl
      · rw [List.getD_eq_getElem?_getD, List.getElem?_set_ne (by omega),
          ← List.getD_eq_getElem?_getD, ihg i hi]
        congr 1
        simp only [eq_iff_iff]
        omega

lemma filter_snd (μ : ℚ) (L : ℕ) (w0 : List ℚ) (p r : List ℚ)
    (hN : L ≤ p.length) :
    (filter μ L w0 p r).2 = weightsAt μ L w0 p r p.length := by
  have h := (run_spec μ L w0 p r (p.length - L) (by omega)).1
  unfold filter
  rw [h]
  congr 1
  omega

lemma filter_fst_length (μ : ℚ) (L : ℕ) (w0 : List ℚ) (p r : List ℚ) :
    (filter μ L w0 p r).1.length = p.length := by
  by_cases hN : L ≤ p.length
  · exact (run_spec μ L w0 p r (p.length - L) (by omega)).2.1
  · unfold filter
    rw [Nat.sub_eq_zero_of_le (by omega)]
    simp

lemma filter_fst_getD (μ : ℚ) (L : ℕ) (w0 : List ℚ) (p r : List ℚ)
    (hN : L ≤ p.length) (i : ℕ) (hi : i < p.length) :
    (filter μ L w0 p r).1.getD i 0 =
      if L ≤ i then errAt μ L w0 p r i else 0 := by
  have h := (run_spec μ L w0 p r (p.length - L) (by omega)).2.2 i hi
  unfold filter
  rw [h]
  congr 1
  simp only [eq_iff_iff]
  omega

lemma weightsAt_length (μ : ℚ) (L : ℕ) (w0 : List ℚ) (p r : List ℚ)
    (hw : w0.length = L) (hr : r.length = p.length) :
    ∀ m, L + m ≤ p.length → (weightsAt μ L w0 p r (L + m)).length = L := by
  intro m
  induction m with
  | zero => intro _; rw [weightsAt_init μ L w0 p r (by omega)]; exact hw
  | succ m ih =>
    intro hm
    have : L + (m + 1) = (L + m) + 1 := by omega
    rw [this, weightsAt_succ μ L w0 p r (by omega : L ≤ L + m)]
    simp only [lmsStep, List.length_zipWith]
    rw [ih (by omega), lmsWindow_length r L (L + m) (by omega) (by omega)]
    omega

end AdaptiveFilter

lemma lmsWindow_eq_map (r : List ℚ) (L i : ℕ) (h1 : L ≤ i) (h2 : i ≤ r.length) :
    lmsWindow r L i = (List.range L).map (fun j => r.getD (i - 1 - j) 0) := by
  apply List.ext_getElem
  · rw [lmsWindow_length r L i h1 h2]
    simp
  · intro j hj hj'
    have hjL : j < L := by simpa using hj'
    unfold lmsWindow
    rw [List.getElem_reverse]
    simp only [List.getElem_take, List.getElem_drop, List.getElem_map,
      List.getElem_range]
    have hlen : (List.take L (List.drop (i - L) r)).length = L := by
      simp only [List.length_take, List.length_drop]; omega
    rw [List.getD_eq_getElem r 0 (by omega)]
    congr 1
    simp only [List.length_reverse, hlen] at hj ⊢
    omega


/-- C1: For every call to `AdaptiveFilter.filter` with primary and reference
signals of equal length `N > L`, and each loop index `i` from `L` to `N-1`
(processed in increasing order): the reference window is the `L` most recent
reference samples ending at `i` ordered most-recent-first
(`window[j] = reference[i-1-j]`), the `i`-th output sample equals
`primary[i]` minus the dot product of the step-`i` weight vector with that
window, the weights are then incremented by `2·μ·error·window`, output
samples at indices below `L` stay zero, the output has length `N`, and the
final weight state is the `N`-th weight iterate. -/
theorem claim_C1 (μ : ℚ) (L : ℕ) (w0 : List ℚ) (p r : List ℚ)
    (hw : w0.length = L) (hr : r.length = p.length) (hN : L < p.length) :
    (∀ i, L ≤ i → i < p.length →
      lmsWindow r L i = (List.range L).map (fun j => r.getD (i - 1 - j) 0)) ∧
    (∀ i, L ≤ i → i < p.length →
      (AdaptiveFilter.filter μ L w0 p r).1.getD i 0 =
        p.getD i 0 -
          dot (AdaptiveFilter.weightsAt μ L w0 p r i) (lmsWindow r L i)) ∧
    (∀ i, L ≤ i → i < p.length →
      AdaptiveFilter.weightsAt μ L w0 p r (i + 1) =
        List.zipWith
          (fun wj xj => wj + 2 * μ * (AdaptiveFilter.errAt μ L w0 p r i) * xj)
          (AdaptiveFilter.weightsAt μ L w0 p r i) (lmsWindow r L i)) ∧
    (∀ i, L ≤ i → i ≤ p.length →
      (AdaptiveFilter.weightsAt μ L w0 p r i).length = L) ∧
    (∀ i, i < L → (AdaptiveFilter.filter μ L w0 p r).1.getD i 0 = 0) ∧
    (AdaptiveFilter.filter μ L w0 p r).1.length = p.length ∧
    (AdaptiveFilter.filter μ L w0 p r).2 =
      AdaptiveFilter.weightsAt μ L w0 p r p.length := by
  refine ⟨?_, ?_, ?_, ?_, ?_, ?_, ?_⟩
  · intro i h1 h2
    exact lmsWindow_eq_map r L i h1 (by omega)
  · intro i h1 h2
    rw [AdaptiveFilter.filter_fst_getD μ L w0 p r (by omega) i h2, if_pos h1]
    rfl
  · intro i h1 h2
    rw [AdaptiveFilter.weightsAt_succ μ L w0 p r h1]
    rfl
  · intro i h1 h2
    have := AdaptiveFilter.weightsAt_length μ L w0 p r hw hr (i - L) (by omega)
    rwa [Nat.add_sub_cancel' h1] at this
  · intro i h1
    rw [AdaptiveFilter.filter_fst_getD μ L w0 p r (by omega) i (by omega)]
    rw [if_neg (by omega)]
  · exact AdaptiveFilter.filter_fst_length μ L w0 p r
  · exact AdaptiveFilter.filter_snd μ L w0 p r (by omega)

/-- Witness for C1: a concrete run with `L = 1`, `μ = 1/2`, primary `[1,2]`,
reference `[1,1]` produces output `[0,2]` and final weights `[2]`, and the
C1 characterization holds there. -/
theorem claim_C1_witness :
    AdaptiveFilter.filter (1/2) 1 [0] [1, 2] [1, 1] = ([0, 2], [2]) ∧
    (∀ i, 1 ≤ i → i < ([1, 2] : List ℚ).length →
      lmsWindow [1, 1] 1 i =
        (List.range 1).map (fun j => ([1, 1] : List ℚ).getD (i - 1 - j) 0)) ∧
    (∀ i, 1 ≤ i → i < ([1, 2] : List ℚ).length →
      (AdaptiveFilter.filter (1/2) 1 [0] [1, 2] [1, 1]).1.getD i 0 =
        ([1, 2] : List ℚ).getD i 0 -
          dot (AdaptiveFilter.weightsAt (1/2) 1 [0] [1, 2] [1, 1] i)
            (lmsWindow [1, 1] 1 i)) ∧
    (∀ i, 1 ≤ i → i < ([1, 2] : List ℚ).length →
      AdaptiveFilter.weightsAt (1/2) 1 [0] [1, 2] [1, 1] (i + 1) =
        List.zipWith
          (fun wj xj =>
            wj + 2 * (1/2) * (AdaptiveFilter.errAt (1/2) 1 [0] [1, 2] [1, 1] i) * xj)
          (AdaptiveFilter.weightsAt (1/2) 1 [0] [1, 2] [1, 1] i)
          (lmsWindow [1, 1] 1 i)) ∧
    (∀ i, 1 ≤ i → i ≤ ([1, 2] : List ℚ).length →
      (AdaptiveFilter.weightsAt (1/2) 1 [0] [1, 2] [1, 1] i).length = 1) ∧
    (∀ i, i < 1 → (AdaptiveFilter.filter (1/2) 1 [0] [1, 2] [1, 1]).1.getD i 0 = 0) ∧
    (AdaptiveFilter.filter (1/2) 1 [0] [1, 2] [1, 1]).1.length =
      ([1, 2] : List ℚ).length ∧
    (AdaptiveFilter.filter (1/2) 1 [0] [1, 2] [1, 1]).2 =
      AdaptiveFilter.weightsAt (1/2) 1 [0] [1, 2] [1, 1] ([1, 2] : List ℚ).length :=
  ⟨by norm_num [AdaptiveFilter.filter, lmsStep, lmsWindow, dot, List.range',
      List.replicate_succ],
    claim_C1 (1/2) 1 [0] [1, 2] [1, 1] (by decide) (by decide) (by decide)⟩

/-- C9: when the primary signal is no longer than the filter length, the loop
of `AdaptiveFilter.filter` never runs: the call returns the all-zero output
of length `N` and leaves the weight vector exactly unchanged. -/
theorem claim_C9 (μ : ℚ) (L : ℕ) (w0 : List ℚ) (p r : List ℚ)
    (h : p.length ≤ L) :
    AdaptiveFilter.filter μ L w0 p r = (List.replicate p.length 0, w0) := by
  unfold AdaptiveFilter.filter
  rw [Nat.sub_eq_zero_of_le h]
  rfl

/-- Witness for C9: a primary signal of length 2 with filter length 3 yields
the all-zero output and the untouched weights `[5,6,7]`. -/
theorem claim_C9_witness :
    AdaptiveFilter.filter 1 3 [5, 6, 7] [1, 2] [4, 4] =
      (List.replicate 2 0, [5, 6, 7]) :=
  claim_C9 1 3 [5, 6, 7] [1, 2] [4, 4] (by decide)

/- ------------------------------------------------------------------
   FFTAnalyzer (fft_analyzer.py): dominant-frequency search and
   heart-rate extraction.  `compute_fft` (Hann window, FFT, one-sided
   2/N-normalized magnitude) is deterministic in the input buffer; its
   output spectrum is abstracted here as the parallel lists `freqs` and
   `mags` that the band search and confidence computation consume.
   ------------------------------------------------------------------ -/

lemma foldl_max_comm (a b : ℚ) (l : List ℚ) :
    l.foldl max (max a b) = max a (l.foldl max b) := by
  induction l generalizing b with
  | nil => rfl
  | cons c l ih => simp only [List.foldl_cons, max_assoc, ih]

lemma listMax_cons_cons (x y : ℚ) (xs : List ℚ) :
    listMax (x :: y :: xs) = max x (listMax (y :: xs)) := by
  simp only [listMax, List.foldl_cons]
  exact foldl_max_comm x y xs

/-- First index of the maximum value of a list, as `np.argmax` (ties broken
toward the earliest index). -/
def argmaxIdx : List ℚ → ℕ
  | [] => 0
  | [_] => 0
  | x :: y :: xs => if x < listMax (y :: xs) then argmaxIdx (y :: xs) + 1 else 0

lemma argmaxIdx_lt_length (l : List ℚ) (h : l ≠ []) : argmaxIdx l < l.length := by
  induction l with
  | nil => exact absurd rfl h
  | cons x xs ih =>
    cases xs with
    | nil => simp [argmaxIdx]
    | cons y ys =>
      by_cases hx : x < listMax (y :: ys)
      · simp only [argmaxIdx, if_pos hx, List.length_cons]
        have := ih (by simp)
        simp only [List.length_cons] at this
        omega
      · simp [argmaxIdx, if_neg hx]

lemma getD_argmaxIdx (l : List ℚ) (h : l ≠ []) :
    l.getD (argmaxIdx l) 0 = listMax l := by
  induction l with
  | nil => exact absurd rfl h
  | cons x xs ih =>
    cases xs with
    | nil => simp [argmaxIdx, listMax]
    | cons y ys =>
      rw [listMax_cons_cons]
      by_cases hx : x < listMax (y :: ys)
      · simp only [argmaxIdx, if_pos hx, List.getD_cons_succ]
        rw [ih (by simp), max_eq_right (le_of_lt hx)]
      · simp only [argmaxIdx, if_neg hx, List.getD_cons_zero]
        exact (max_eq_left (not_lt.mp hx)).symm

lemma getD_le_listMax (l : List ℚ) : ∀ j < l.length, l.getD j 0 ≤ listMax l := by
  induction l with
  | nil => intro j hj; simp at hj
  | cons x xs ih =>
    intro j hj
    cases xs with
    | nil =>
      have : j = 0 := by simpa using hj
      subst this
      simp [listMax]
    | cons y ys =>
      rw [listMax_cons_cons]
      cases j with
      | zero => simp
      | succ j =>
        simp only [List.getD_cons_succ]
        exact le_trans (ih j (by simpa using hj)) (le_max_right _ _)

lemma getD_lt_before_argmaxIdx (l : List ℚ) :
    ∀ j < argmaxIdx l, l.getD j 0 < listMax l := by
  induction l with
  | nil => intro j hj; simp [argmaxIdx] at hj
  | cons x xs ih =>
    intro j hj
    cases xs with
    | nil => simp [argmaxIdx] at hj
    | cons y ys =>
      by_cases hx : x < listMax (y :: ys)
      · rw [listMax_cons_cons, max_eq_right (le_of_lt hx)]
        simp only [argmaxIdx, if_pos hx] at hj
        cases j with
        | zero => simpa using hx
        | succ j => exact ih j (by omega)
      · simp [argmaxIdx, if_neg hx] at hj

namespace FFTAnalyzer

/-- The band-restricted spectrum of `find_dominant_frequency` (fft_analyzer.py
lines 77-80): the pairs of the spectrum whose frequency lies in the inclusive
range `[lo, hi]`, mirroring the boolean mask
`(frequencies >= freq_range[0]) & (frequencies <= freq_range[1])` applied to
both parallel arrays. -/
def bandPairs (freqs mags : List ℚ) (lo hi : ℚ) : List (ℚ × ℚ) :=
  (freqs.zip mags).filter fun p => decide (lo ≤ p.1) && decide (p.1 ≤ hi)

/-- `FFTAnalyzer.find_dominant_frequency`: mask the spectrum to the inclusive
band, return `(0, 0)` when the masked spectrum is empty, else the
`(frequency, magnitude)` pair at the first index of maximum magnitude
(`np.argmax`). -/
def find_dominant_frequency (freqs mags : List ℚ) (lo hi : ℚ) : ℚ × ℚ :=
  let pairs := bandPairs freqs mags lo hi
  if pairs = [] then (0, 0)
  else pairs.getD (argmaxIdx (pairs.map Prod.snd)) (0, 0)

/-- `FFTAnalyzer.extract_heart_rate`: dominant frequency over the band
`[0.67, 3.33]` Hz times 60, and confidence `magnitude / mean_mag` guarded by
`if mean_mag > 0 else 0`.  The full spectrum magnitude list `mags` is shared
with the band search (the source recomputes `compute_fft` on the same buffer,
which is deterministic). -/
def extract_heart_rate (freqs mags : List ℚ) : ℚ × ℚ :=
  let d := find_dominant_frequency freqs mags (67/100) (333/100)
  let meanMag := listMean mags
  (d.1 * 60, if 0 < meanMag then d.2 / meanMag else 0)

end FFTAnalyzer

lemma bandPairs_getD_mem (S : List (ℚ × ℚ)) (k : ℕ) (hk : k < S.length) :
    S.getD k (0, 0) ∈ S := by
  rw [List.getD_eq_getElem _ _ hk]
  exact List.getElem_mem hk

lemma map_snd_getD (S : List (ℚ × ℚ)) (j : ℕ) (hj : j < S.length) :
    (S.map Prod.snd).getD j 0 = (S.getD j (0, 0)).2 := by
  rw [List.getD_eq_getElem _ _ (by simpa using hj), List.getElem_map,
    List.getD_eq_getElem _ _ hj]

/-- C2: the dominant-frequency search restricts the spectrum to the bins whose
frequency lies in the inclusive band `[lo, hi]`; if no bin is in range it
returns `(0, 0)`; otherwise it returns a band bin whose magnitude is maximal
over the band, every strictly earlier band bin having strictly smaller
magnitude (first occurrence on ties). -/
theorem claim_C2 (freqs mags : List ℚ) (lo hi : ℚ) :
    (FFTAnalyzer.bandPairs freqs mags lo hi = [] →
      FFTAnalyzer.find_dominant_frequency freqs mags lo hi = (0, 0)) ∧
    (FFTAnalyzer.bandPairs freqs mags lo hi ≠ [] →
      ∃ k < (FFTAnalyzer.bandPairs freqs mags lo hi).length,
        FFTAnalyzer.find_dominant_frequency freqs mags lo hi =
          (FFTAnalyzer.bandPairs freqs mags lo hi).getD k (0, 0) ∧
        lo ≤ ((FFTAnalyzer.bandPairs freqs mags lo hi).getD k (0, 0)).1 ∧
        ((FFTAnalyzer.bandPairs freqs mags lo hi).getD k (0, 0)).1 ≤ hi ∧
        (∀ j < (FFTAnalyzer.bandPairs freqs mags lo hi).length,
          ((FFTAnalyzer.bandPairs freqs mags lo hi).getD j (0, 0)).2 ≤
            ((FFTAnalyzer.bandPairs freqs mags lo hi).getD k (0, 0)).2) ∧
        (∀ j < k,
          ((FFTAnalyzer.bandPairs freqs mags lo hi).getD j (0, 0)).2 <
            ((FFTAnalyzer.bandPairs freqs mags lo hi).getD k (0, 0)).2)) := by
  constructor
  · intro h
    simp [FFTAnalyzer.find_dominant_frequency, h]
  · intro h
    set S := FFTAnalyzer.bandPairs freqs mags lo hi with hS
    have hmapne : S.map Prod.snd ≠ [] := by
      simpa using h
    have hk : argmaxIdx (S.map Prod.snd) < S.length := by
      have := argmaxIdx_lt_length (S.map Prod.snd) hmapne
      simpa using this
    refine ⟨argmaxIdx (S.map Prod.snd), hk, ?_, ?_, ?_, ?_, ?_⟩
    · simp [FFTAnalyzer.find_dominant_frequency, h, ← hS]
    · have hmem := bandPairs_getD_mem S _ hk
      rw [hS] at hmem
      have := (List.mem_filter.mp hmem).2
      simp only [Bool.and_eq_true, decide_eq_true_eq] at this
      exact this.1
    · have hmem := bandPairs_getD_mem S _ hk
      rw [hS] at hmem
      have := (List.mem_filter.mp hmem).2
      simp only [Bool.and_eq_true, decide_eq_true_eq] at this
      exact this.2
    · intro j hj
      rw [← map_snd_getD S j hj, ← map_snd_getD S _ hk]
      rw [getD_argmaxIdx (S.map Prod.snd) hmapne]
      exact getD_le_listMax (S.map Prod.snd) j (by simpa using hj)
    · intro j hj
      rw [← map_snd_getD S j (by omega), ← map_snd_getD S _ hk]
      rw [getD_argmaxIdx (S.map Prod.snd) hmapne]
      exact getD_lt_before_argmaxIdx (S.map Prod.snd) j hj

/-- Witness for C2: with spectrum `[(10, 1)]` and band `[0, 1]` no bin is in
range and the search returns `(0, 0)`; with spectrum `[(1, 3), (2, 1)]` and
band `[0, 5]` the search returns a maximal first-occurrence band bin. -/
theorem claim_C2_witness :
    (FFTAnalyzer.bandPairs [10] [1] 0 1 = [] ∧
      FFTAnalyzer.find_dominant_frequency [10] [1] 0 1 = (0, 0)) ∧
    (FFTAnalyzer.bandPairs [1, 2] [3, 1] 0 5 ≠ [] ∧
      ∃ k < (FFTAnalyzer.bandPairs [1, 2] [3, 1] 0 5).length,
        FFTAnalyzer.find_dominant_frequency [1, 2] [3, 1] 0 5 =
          (FFTAnalyzer.bandPairs [1, 2] [3, 1] 0 5).getD k (0, 0) ∧
        (0:ℚ) ≤ ((FFTAnalyzer.bandPairs [1, 2] [3, 1] 0 5).getD k (0, 0)).1 ∧
        ((FFTAnalyzer.bandPairs [1, 2] [3, 1] 0 5).getD k (0, 0)).1 ≤ 5 ∧
        (∀ j < (FFTAnalyzer.bandPairs [1, 2] [3, 1] 0 5).length,
          ((FFTAnalyzer.bandPairs [1, 2] [3, 1] 0 5).getD j (0, 0)).2 ≤
            ((FFTAnalyzer.bandPairs [1, 2] [3, 1] 0 5).getD k (0, 0)).2) ∧
        (∀ j < k,
          ((FFTAnalyzer.bandPairs [1, 2] [3, 1] 0 5).getD j (0, 0)).2 <
            ((FFTAnalyzer.bandPairs [1, 2] [3, 1] 0 5).getD k (0, 0)).2)) := by
  have hempt : FFTAnalyzer.bandPairs [10] [1] 0 1 = [] := by
    norm_num [FFTAnalyzer.bandPairs, List.filter]
  have hne : FFTAnalyzer.bandPairs [1, 2] [3, 1] 0 5 ≠ [] := by
    rw [show FFTAnalyzer.bandPairs [1, 2] [3, 1] 0 5 = [(1, 3), (2, 1)] from by
      norm_num [FFTAnalyzer.bandPairs, List.filter]]
    simp
  exact ⟨⟨hempt, (claim_C2 [10] [1] 0 1).1 hempt⟩,
    ⟨hne, (claim_C2 [1, 2] [3, 1] 0 5).2 hne⟩⟩

/-- C3: heart-rate extraction returns the dominant frequency over the band
`[0.67, 3.33]` Hz times 60 as its rate; its confidence times the mean of the
full-spectrum magnitudes equals the dominant peak magnitude whenever that
mean is positive, and the confidence is 0 when the mean is 0 (it is also 0
for a nonpositive mean, the guard being `mean_mag > 0`). -/
theorem claim_C3 (freqs mags : List ℚ) :
    (FFTAnalyzer.extract_heart_rate freqs mags).1 =
      (FFTAnalyzer.find_dominant_frequency freqs mags (67/100) (333/100)).1 * 60 ∧
    (0 < listMean mags →
      (FFTAnalyzer.extract_heart_rate freqs mags).2 * listMean mags =
        (FFTAnalyzer.find_dominant_frequency freqs mags (67/100) (333/100)).2) ∧
    (listMean mags = 0 → (FFTAnalyzer.extract_heart_rate freqs mags).2 = 0) := by
  refine ⟨rfl, ?_, ?_⟩
  · intro h
    simp only [FFTAnalyzer.extract_heart_rate, if_pos h]
    exact div_mul_cancel₀ _ (ne_of_gt h)
  · intro h
    simp [FFTAnalyzer.extract_heart_rate, h]

/-- Witness for C3: spectrum `[(1, 3), (2, 1)]` has positive mean magnitude 2,
rate `60 ×` dominant frequency, and confidence `× mean = peak magnitude`. -/
theorem claim_C3_witness :
    (FFTAnalyzer.extract_heart_rate [1, 2] [3, 1]).1 =
      (FFTAnalyzer.find_dominant_frequency [1, 2] [3, 1] (67/100) (333/100)).1 * 60 ∧
    0 < listMean [3, 1] ∧
    (FFTAnalyzer.extract_heart_rate [1, 2] [3, 1]).2 * listMean [3, 1] =
      (FFTAnalyzer.find_dominant_frequency [1, 2] [3, 1] (67/100) (333/100)).2 :=
  ⟨(claim_C3 [1, 2] [3, 1]).1, by norm_num [listMean],
    (claim_C3 [1, 2] [3, 1]).2.1 (by norm_num [listMean])⟩

/- ------------------------------------------------------------------
   Peak Detector (main.py, demo_ecg_processing lines 104-118): threshold
   at half the global maximum, strict interior local maxima, 0.3 s
   refractory distance, rate = 60 / mean RR interval.
   ------------------------------------------------------------------ -/

/-- The candidate test of the QRS scan (main.py line 107): the sample at `i`
strictly exceeds the threshold and both neighbours
(`filtered[i] > threshold and filtered[i] > filtered[i-1] and
filtered[i] > filtered[i+1]`). -/
def qrsAccept (xs : List ℚ) (thr : ℚ) (i : ℕ) : Prop :=
  thr < xs.getD i 0 ∧ xs.getD (i-1) 0 < xs.getD i 0 ∧ xs.getD (i+1) 0 < xs.getD i 0

instance (xs : List ℚ) (thr : ℚ) (i : ℕ) : Decidable (qrsAccept xs thr i) := by
  unfold qrsAccept
  infer_instance

/-- The refractory acceptance relation (main.py line 108): a peak at `b` may
follow a peak at `a` only when `b - a > sample_rate * 0.3`. -/
def qrsRefractory (rate : ℚ) (a b : ℕ) : Prop :=
  rate * (3/10) < (b : ℚ) - (a : ℚ)

/-- One iteration of the QRS scan: append `i` when it is a strict local
maximum above the threshold and either no peak was accepted yet
(`len(peaks) == 0`) or `i - peaks[-1] > sample_rate * 0.3`. -/
def qrsStep (xs : List ℚ) (rate thr : ℚ) (peaks : List ℕ) (i : ℕ) : List ℕ :=
  if qrsAccept xs thr i ∧ (peaks = [] ∨ rate * (3/10) < (i : ℚ) - (peaks.getLastD 0 : ℕ))
  then peaks ++ [i] else peaks

/-- The QRS scan of `demo_ecg_processing`: `threshold = 0.5 * np.max(filtered)`
computed once over the whole buffer, then a pass over interior indices
`range(1, len(filtered)-1)` accumulating accepted peaks. -/
def detect_qrs_peaks (xs : List ℚ) (rate : ℚ) : List ℕ :=
  (List.range' 1 (xs.length - 2)).foldl (qrsStep xs rate ((1/2) * listMax xs)) []

/-- The downstream rate estimate (main.py lines 111-114): when more than one
peak exists, `rr_intervals = np.diff(peaks) / sample_rate`,
`detected_hr = 60 / np.mean(rr_intervals)`; otherwise no rate is reported. -/
def qrsRate (peaks : List ℕ) (rate : ℚ) : Option ℚ :=
  if 1 < peaks.length then
    some (60 / listMean ((peaks.zip peaks.tail).map
      fun pq => ((pq.2 : ℚ) - (pq.1 : ℚ)) / rate))
  else none

lemma qrs_fold_spec (xs : List ℚ) (rate thr : ℚ) (is : List ℕ) :
    ∀ (acc : List ℕ),
      List.Pairwise (· < ·) is →
      (∀ p ∈ acc, ∀ i ∈ is, p < i) →
      List.Chain' (· < ·) acc →
      List.Chain' (qrsRefractory rate) acc →
      List.Chain' (· < ·) (is.foldl (qrsStep xs rate thr) acc) ∧
      List.Chain' (qrsRefractory rate) (is.foldl (qrsStep xs rate thr) acc) ∧
      ∀ p ∈ is.foldl (qrsStep xs rate thr) acc,
        p ∈ acc ∨ (p ∈ is ∧ qrsAccept xs thr p) := by
  induction is with
  | nil =>
    intro acc _ _ h1 h2
    exact ⟨h1, h2, fun p hp => Or.inl hp⟩
  | cons i is ih =>
    intro acc hpw hmono h1 h2
    have hpw' : List.Pairwise (· < ·) is := (List.pairwise_cons.mp hpw).2
    have hi_lt : ∀ j ∈ is, i < j := (List.pairwise_cons.mp hpw).1
    simp only [List.foldl_cons]
    by_cases hc : qrsAccept xs thr i ∧
        (acc = [] ∨ rate * (3/10) < (i : ℚ) - (acc.getLastD 0 : ℕ))
    · rw [show qrsStep xs rate thr acc i = acc ++ [i] from by
        simp only [qrsStep, if_pos hc]]
      have hmono' : ∀ p ∈ acc ++ [i], ∀ j ∈ is, p < j := by
        intro p hp j hj
        rcases List.mem_append.mp hp with h | h
        · exact hmono p h j (List.mem_cons_of_mem _ hj)
        · rw [List.mem_singleton.mp h]
          exact hi_lt j hj
      have h1' : List.Chain' (· < ·) (acc ++ [i]) := by
        rw [List.chain'_append]
        refine ⟨h1, List.chain'_singleton i, ?_⟩
        intro x hx y hy
        rw [show y = i from by have := hy; simp at this; omega]
        exact hmono x (List.mem_of_mem_getLast? hx) i (List.mem_cons_self _ _)
      have h2' : List.Chain' (qrsRefractory rate) (acc ++ [i]) := by
        rw [List.chain'_append]
        refine ⟨h2, List.chain'_singleton i, ?_⟩
        intro x hx y hy
        rw [show y = i from by have := hy; simp at this; omega]
        rcases hc.2 with hnil | hlast
        · rw [hnil] at hx
          simp at hx
        · have hxval : acc.getLastD 0 = x := by
            rw [List.getLastD_eq_getLast?, hx]
            rfl
          unfold qrsRefractory
          rw [← hxval]
          exact hlast
      obtain ⟨r1, r2, r3⟩ := ih (acc ++ [i]) hpw' hmono' h1' h2'
      refine ⟨r1, r2, ?_⟩
      intro p hp
      rcases r3 p hp with h | h
      · rcases List.mem_append.mp h with h' | h'
        · exact Or.inl h'
        · rw [List.mem_singleton.mp h']
          exact Or.inr ⟨List.mem_cons_self _ _, hc.1⟩
      · exact Or.inr ⟨List.mem_cons_of_mem _ h.1, h.2⟩
    · rw [show qrsStep xs rate thr acc i = acc from by
        simp only [qrsStep, if_neg hc]]
      obtain ⟨r1, r2, r3⟩ :=
        ih acc hpw' (fun p hp j hj => hmono p hp j (List.mem_cons_of_mem _ hj)) h1 h2
      exact ⟨r1, r2, fun p hp =>
        (r3 p hp).imp id (fun h => ⟨List.mem_cons_of_mem _ h.1, h.2⟩)⟩

/-- C4: the QRS peak detector thresholds at half the buffer's global maximum,
accepts only interior strict local maxima above the threshold with each
accepted peak more than `0.3·sample_rate` samples past the previous one, its
output is strictly increasing, and a rate of `60 / mean RR-interval` is
reported exactly when at least two peaks were accepted. -/
theorem claim_C4 (xs : List ℚ) (rate : ℚ) :
    List.Chain' (· < ·) (detect_qrs_peaks xs rate) ∧
    (∀ p ∈ detect_qrs_peaks xs rate,
      1 ≤ p ∧ p + 1 < xs.length ∧ qrsAccept xs ((1/2) * listMax xs) p) ∧
    List.Chain' (qrsRefractory rate) (detect_qrs_peaks xs rate) ∧
    (2 ≤ (detect_qrs_peaks xs rate).length →
      qrsRate (detect_qrs_peaks xs rate) rate =
        some (60 / listMean
          (((detect_qrs_peaks xs rate).zip (detect_qrs_peaks xs rate).tail).map
            fun pq => ((pq.2 : ℚ) - (pq.1 : ℚ)) / rate))) ∧
    ((detect_qrs_peaks xs rate).length < 2 →
      qrsRate (detect_qrs_peaks xs rate) rate = none) := by
  obtain ⟨r1, r2, r3⟩ := qrs_fold_spec xs rate ((1/2) * listMax xs)
    (List.range' 1 (xs.length - 2)) []
    (List.pairwise_lt_range' 1 (xs.length - 2))
    (by intro p hp; simp at hp)
    List.chain'_nil List.chain'_nil
  refine ⟨r1, ?_, r2, ?_, ?_⟩
  · intro p hp
    rcases r3 p hp with h | h
    · simp at h
    · have hmem := List.mem_range'_1.mp h.1
      exact ⟨hmem.1, by omega, h.2⟩
  · intro h2
    rw [qrsRate, if_pos (by omega)]
  · intro h2
    rw [qrsRate, if_neg (by omega)]

/-- Witness for C4: on the buffer `[0,1,0,0,1,0]` at sample rate 1 the
detector accepts peaks `[1, 4]` and reports `60 / 3 = 20`, and the C4
properties hold there. -/
theorem claim_C4_witness :
    detect_qrs_peaks [0, 1, 0, 0, 1, 0] 1 = [1, 4] ∧
    qrsRate (detect_qrs_peaks [0, 1, 0, 0, 1, 0] 1) 1 = some 20 ∧
    List.Chain' (· < ·) (detect_qrs_peaks [0, 1, 0, 0, 1, 0] 1) ∧
    List.Chain' (qrsRefractory 1) (detect_qrs_peaks [0, 1, 0, 0, 1, 0] 1) := by
  have hd : detect_qrs_peaks [0, 1, 0, 0, 1, 0] 1 = [1, 4] := by
    norm_num [detect_qrs_peaks, qrsStep, qrsAccept, listMax, List.range']
  obtain ⟨c1, _, c3, c4, _⟩ := claim_C4 [0, 1, 0, 0, 1, 0] 1
  refine ⟨hd, ?_, c1, c3⟩
  rw [c4 (by rw [hd]; norm_num), hd]
  norm_num [listMean]

/- ------------------------------------------------------------------
   DSPFilters (dsp_filters.py lines 8-135): Butterworth low/high/band
   pass, notch, moving-average, median and FIR filters.  The IIR/FIR
   paths delegate to scipy (`signal.butter`, `signal.iirnotch`,
   `signal.firwin`, `signal.filtfilt`, `signal.medfilt`); those library
   routines are embedded from their documented semantics.  The designed
   filter coefficients are transcendental numbers (Butterworth pole
   placement, `tan`/`cos` in the notch design, windowed sinc for FIR);
   they are abstracted as rational-list parameters `bc`, `ac` (and the
   `lfilter_zi` steady state `zi`), which the verified claims quantify
   over, since only the validation logic and the length bookkeeping of
   the application step decide the claims.
   ------------------------------------------------------------------ -/

namespace DSPFilters

/-- The recursion of `scipy.signal.lfilter` (direct form II transposed):
`y[m] = b'[0]·x[m] + z[0]` and `z'[i] = b'[i+1]·x[m] + z[i+1] - a'[i+1]·y[m]`
over a state vector of length `k-1`, where `k = max(len(a), len(b))` and
`b'`, `a'` are the coefficient streams (zero-extended, `a[0]`-normalized). -/
def lfilterGo (bn an : ℕ → ℚ) (k : ℕ) : List ℚ → List ℚ → List ℚ
  | _, [] => []
  | z, xn :: rest =>
    let y := bn 0 * xn + z.getD 0 0
    y :: lfilterGo bn an k
      ((List.range (k - 1)).map fun i => bn (i+1) * xn + z.getD (i+1) 0 - an (i+1) * y)
      rest

/-- `scipy.signal.lfilter(b, a, x, zi=zi)` (output only): coefficients are
normalized by `a[0]` and zero-extended to the common length
`k = max(len(a), len(b))`; the initial state is `zi` (zero-extended to
length `k-1`).  `a[0] = 0` would produce NaNs in scipy and is never produced
by the filter designs; rational division simply totalizes it. -/
def lfilter (b a zi x : List ℚ) : List ℚ :=
  let k := max a.length b.length
  let a0 := a.getD 0 0
  lfilterGo (fun i => b.getD i 0 / a0) (fun i => a.getD i 0 / a0) k
    ((List.range (k - 1)).map fun i => zi.getD i 0) x

/-- The default pad length of `scipy.signal.filtfilt`:
`padlen = 3 * max(len(a), len(b))`. -/
def padlen (b a : List ℚ) : ℕ := 3 * max a.length b.length

/-- `scipy.signal._arraytools.odd_ext(x, n)`: odd reflection about the edge
values, `concat(2*x[0] - x[n:0:-1], x, 2*x[-1] - x[-2:-(n+2):-1])`
(requires `len(x) > n`, checked by `filtfilt`). -/
def oddExt (x : List ℚ) (n : ℕ) : List ℚ :=
  ((List.range n).map fun j => 2 * x.getD 0 0 - x.getD (n - j) 0)
    ++ x ++
    ((List.range n).map fun j => 2 * x.getD (x.length - 1) 0 - x.getD (x.length - 2 - j) 0)

/-- `scipy.signal.filtfilt(b, a, x)` with the default `padtype='odd'`,
`padlen=3*max(len(a),len(b))`, `method='pad'`: raise `ValueError` when
`x.shape[axis] <= padlen`; otherwise odd-extend, filter forward from the
steady state scaled by the first extended sample, filter the reversed output
from the steady state scaled by its first sample, reverse back and trim
`padlen` samples from each end.  The steady-state vector
`zi = lfilter_zi(b, a)` is a parameter (its value is the solution of a
linear system in the coefficients and does not affect the claims). -/
def filtfilt (b a zi x : List ℚ) : Except DSPError (List ℚ) :=
  let n := padlen b a
  if x.length ≤ n then .error .insufficientData
  else
    let ext := oddExt x n
    let y1 := lfilter b a (zi.map (· * ext.getD 0 0)) ext
    let y1r := y1.reverse
    let y2 := lfilter b a (zi.map (· * y1r.getD 0 0)) y1r
    .ok ((y2.reverse.drop n).take (y2.length - 2 * n))

/-- `DSPFilters.butterworth_lowpass`: normalize the cutoff by the Nyquist
frequency and delegate to `signal.butter(order, wn, btype='low')` followed by
`signal.filtfilt`.  `scipy.signal.iirfilter` raises
`ValueError('Digital filter critical frequencies must be 0 < Wn < 1')`
when the normalized frequency is outside the open interval `(0, 1)`. -/
def butterworth_lowpass (bc ac zi : List ℚ) (sampleRate : ℚ) (data : List ℚ)
    (cutoff : ℚ) : Except DSPError (List ℚ) :=
  let nyquist := sampleRate / 2
  let wn := cutoff / nyquist
  if wn ≤ 0 ∨ 1 ≤ wn then .error .invalidParameter
  else filtfilt bc ac zi data

/-- `DSPFilters.butterworth_highpass`: same validation and application shape
as the low-pass path (`btype='high'`). -/
def butterworth_highpass (bc ac zi : List ℚ) (sampleRate : ℚ) (data : List ℚ)
    (cutoff : ℚ) : Except DSPError (List ℚ) :=
  let nyquist := sampleRate / 2
  let wn := cutoff / nyquist
  if wn ≤ 0 ∨ 1 ≤ wn then .error .invalidParameter
  else filtfilt bc ac zi data

/-- `DSPFilters.butterworth_bandpass`: both normalized band edges must lie in
`(0, 1)` (`np.any(Wn <= 0) or np.any(Wn >= 1)` raises in `iirfilter`). -/
def butterworth_bandpass (bc ac zi : List ℚ) (sampleRate : ℚ) (data : List ℚ)
    (lowFreq highFreq : ℚ) : Except DSPError (List ℚ) :=
  let nyquist := sampleRate / 2
  let lo := lowFreq / nyquist
  let hi := highFreq / nyquist
  if lo ≤ 0 ∨ 1 ≤ lo ∨ hi ≤ 0 ∨ 1 ≤ hi then .error .invalidParameter
  else filtfilt bc ac zi data

/-- `DSPFilters.notch_filter`: normalize by Nyquist and delegate to
`signal.iirnotch(w0, Q)` followed by `signal.filtfilt`.  The validation in
scipy's `_design_notch_peak_filter` is `if w0 > 1.0 or w0 < 0.0: raise`,
so the boundary value `w0 == 1.0` (notch frequency exactly at Nyquist) is
accepted and the design proceeds with finite coefficients. -/
def notch_filter (bc ac zi : List ℚ) (sampleRate : ℚ) (data : List ℚ)
    (notchFreq _quality : ℚ) : Except DSPError (List ℚ) :=
  let nyquist := sampleRate / 2
  let w0 := notchFreq / nyquist
  if 1 < w0 ∨ w0 < 0 then .error .invalidParameter
  else filtfilt bc ac zi data

/-- `DSPFilters.fir_filter`: `signal.firwin(numtaps, wn, pass_zero=...)`
rejects normalized cutoffs outside `(0, 1)` (`Invalid cutoff frequency`),
then `signal.filtfilt(coefficients, [1.0], data)`. -/
def fir_filter (coeffs zi : List ℚ) (sampleRate : ℚ) (data : List ℚ)
    (cutoff : ℚ) : Except DSPError (List ℚ) :=
  let nyquist := sampleRate / 2
  let wn := cutoff / nyquist
  if wn ≤ 0 ∨ 1 ≤ wn then .error .invalidParameter
  else filtfilt coeffs [1] zi data

/-- `np.convolve(a, v, mode='valid')` for `len(a) ≥ len(v)`:
`out[i] = Σ_m a[i+m] · v[len(v)-1-m]`. -/
def convolveValid (a v : List ℚ) : List ℚ :=
  (List.range (a.length + 1 - v.length)).map fun i =>
    ((List.range v.length).map fun m => a.getD (i + m) 0 * v.getD (v.length - 1 - m) 0).sum

/-- `DSPFilters.moving_average`: kernel `np.ones(W)/W`, edge padding by
`W//2` replicated boundary samples on each side (`np.pad(..., mode='edge')`,
which rejects an empty input), valid-mode convolution, and trim to the input
length.  `W = 0` would make `np.convolve` raise (`v cannot be empty`). -/
def moving_average (data : List ℚ) (W : ℕ) : Except DSPError (List ℚ) :=
  if W = 0 then .error .invalidParameter
  else if data = [] then .error .invalidParameter
  else
    let kernel := List.replicate W ((1 : ℚ) / W)
    let padded := List.replicate (W / 2) (data.getD 0 0) ++ data ++
      List.replicate (W / 2) (data.getD (data.length - 1) 0)
    .ok ((convolveValid padded kernel).take data.length)

/-- Sample of `data` at a signed index, zero outside the range: the
zero-padded boundary convention of `scipy.signal.medfilt`. -/
def getZ (data : List ℚ) (idx : ℤ) : ℚ :=
  if 0 ≤ idx ∧ idx < data.length then data.getD idx.toNat 0 else 0

/-- The centered window of odd length `W` around index `i`, zero-padded at
the boundaries, as gathered by `scipy.signal.medfilt`. -/
def medfiltWindow (data : List ℚ) (W i : ℕ) : List ℚ :=
  (List.range W).map fun (j : ℕ) => getZ data ((i : ℤ) + (j : ℤ) - (((W - 1) / 2 : ℕ) : ℤ))

/-- Median of a list: middle element of the sorted list. -/
def listMedian (l : List ℚ) : ℚ :=
  (l.insertionSort (· ≤ ·)).getD (l.length / 2) 0

/-- `DSPFilters.median_filter` = `scipy.signal.medfilt(data, kernel_size=W)`:
scipy raises `ValueError('Each element of kernel_size should be odd.')` for
an even window length; for an odd length each output sample is the median of
the centered zero-padded window. -/
def median_filter (data : List ℚ) (W : ℕ) : Except DSPError (List ℚ) :=
  if W % 2 = 0 then .error .invalidParameter
  else .ok ((List.range data.length).map fun i => listMedian (medfiltWindow data W i))

end DSPFilters

namespace DSPFilters

lemma lfilterGo_length (bn an : ℕ → ℚ) (k : ℕ) :
    ∀ (x z : List ℚ), (lfilterGo bn an k z x).length = x.length := by
  intro x
  induction x with
  | nil => intro z; rfl
  | cons xn rest ih =>
    intro z
    simp only [lfilterGo, List.length_cons, ih]

lemma lfilter_length (b a zi x : List ℚ) : (lfilter b a zi x).length = x.length := by
  unfold lfilter
  exact lfilterGo_length _ _ _ x _

lemma oddExt_length (x : List ℚ) (n : ℕ) : (oddExt x n).length = x.length + 2 * n := by
  unfold oddExt
  simp only [List.length_append, List.length_map, List.length_range]
  omega

lemma filtfilt_ok_length (b a zi x y : List ℚ)
    (h : filtfilt b a zi x = .ok y) : y.length = x.length := by
  unfold filtfilt at h
  by_cases hn : x.length ≤ padlen b a
  · rw [if_pos hn] at h
    exact absurd h (by simp)
  · rw [if_neg hn] at h
    simp only [Except.ok.injEq] at h
    subst h
    simp only [List.length_take, List.length_drop, List.length_reverse,
      lfilter_length, oddExt_length]
    omega

lemma convolveValid_length (a v : List ℚ) :
    (convolveValid a v).length = a.length + 1 - v.length := by
  simp [convolveValid]

lemma moving_average_ok_length (data : List ℚ) (W : ℕ) (y : List ℚ)
    (h : moving_average data W = .ok y) : y.length = data.length := by
  unfold moving_average at h
  by_cases hW : W = 0
  · rw [if_pos hW] at h
    exact absurd h (by simp)
  · rw [if_neg hW] at h
    by_cases hd : data = []
    · rw [if_pos hd] at h
      exact absurd h (by simp)
    · rw [if_neg hd] at h
      simp only [Except.ok.injEq] at h
      subst h
      simp only [List.length_take, convolveValid_length, List.length_append,
        List.length_replicate]
      omega

lemma median_filter_ok_length (data : List ℚ) (W : ℕ) (y : List ℚ)
    (h : median_filter data W = .ok y) : y.length = data.length := by
  unfold median_filter at h
  by_cases hW : W % 2 = 0
  · rw [if_pos hW] at h
    exact absurd h (by simp)
  · rw [if_neg hW] at h
    simp only [Except.ok.injEq] at h
    subst h
    simp

end DSPFilters

/-- C5: every filtering operation of the filter bank that completes without
error (Butterworth low/high/band-pass, notch, FIR — over any designed
coefficient and steady-state vectors — moving average, and median) returns a
buffer of exactly the input buffer's length. -/
theorem claim_C5 :
    (∀ (bc ac zi : List ℚ) (sr : ℚ) (data : List ℚ) (cutoff : ℚ) (y : List ℚ),
      DSPFilters.butterworth_lowpass bc ac zi sr data cutoff = .ok y →
        y.length = data.length) ∧
    (∀ (bc ac zi : List ℚ) (sr : ℚ) (data : List ℚ) (cutoff : ℚ) (y : List ℚ),
      DSPFilters.butterworth_highpass bc ac zi sr data cutoff = .ok y →
        y.length = data.length) ∧
    (∀ (bc ac zi : List ℚ) (sr : ℚ) (data : List ℚ) (lo hi : ℚ) (y : List ℚ),
      DSPFilters.butterworth_bandpass bc ac zi sr data lo hi = .ok y →
        y.length = data.length) ∧
    (∀ (bc ac zi : List ℚ) (sr : ℚ) (data : List ℚ) (f q : ℚ) (y : List ℚ),
      DSPFilters.notch_filter bc ac zi sr data f q = .ok y →
        y.length = data.length) ∧
    (∀ (coeffs zi : List ℚ) (sr : ℚ) (data : List ℚ) (cutoff : ℚ) (y : List ℚ),
      DSPFilters.fir_filter coeffs zi sr data cutoff = .ok y →
        y.length = data.length) ∧
    (∀ (data : List ℚ) (W : ℕ) (y : List ℚ),
      DSPFilters.moving_average data W = .ok y → y.length = data.length) ∧
    (∀ (data : List ℚ) (W : ℕ) (y : List ℚ),
      DSPFilters.median_filter data W = .ok y → y.length = data.length) := by
  refine ⟨?_, ?_, ?_, ?_, ?_, ?_, ?_⟩
  · intro bc ac zi sr data cutoff y h
    unfold DSPFilters.butterworth_lowpass at h
    by_cases hc : cutoff / (sr / 2) ≤ 0 ∨ 1 ≤ cutoff / (sr / 2)
    · rw [if_pos hc] at h
      exact absurd h (by simp)
    · rw [if_neg hc] at h
      exact DSPFilters.filtfilt_ok_length bc ac zi data y h
  · intro bc ac zi sr data cutoff y h
    unfold DSPFilters.butterworth_highpass at h
    by_cases hc : cutoff / (sr / 2) ≤ 0 ∨ 1 ≤ cutoff / (sr / 2)
    · rw [if_pos hc] at h
      exact absurd h (by simp)
    · rw [if_neg hc] at h
      exact DSPFilters.filtfilt_ok_length bc ac zi data y h
  · intro bc ac zi sr data lo hi y h
    unfold DSPFilters.butterworth_bandpass at h
    by_cases hc : lo / (sr / 2) ≤ 0 ∨ 1 ≤ lo / (sr / 2) ∨
        hi / (sr / 2) ≤ 0 ∨ 1 ≤ hi / (sr / 2)
    · rw [if_pos hc] at h
      exact absurd h (by simp)
    · rw [if_neg hc] at h
      exact DSPFilters.filtfilt_ok_length bc ac zi data y h
  · intro bc ac zi sr data f q y h
    unfold DSPFilters.notch_filter at h
    by_cases hc : 1 < f / (sr / 2) ∨ f / (sr / 2) < 0
    · rw [if_pos hc] at h
      exact absurd h (by simp)
    · rw [if_neg hc] at h
      exact DSPFilters.filtfilt_ok_length bc ac zi data y h
  · intro coeffs zi sr data cutoff y h
    unfold DSPFilters.fir_filter at h
    by_cases hc : cutoff / (sr / 2) ≤ 0 ∨ 1 ≤ cutoff / (sr / 2)
    · rw [if_pos hc] at h
      exact absurd h (by simp)
    · rw [if_neg hc] at h
      exact DSPFilters.filtfilt_ok_length coeffs [1] zi data y h
  · exact DSPFilters.moving_average_ok_length
  · exact DSPFilters.median_filter_ok_length

lemma lfilterGo_identity (bn an : ℕ → ℚ) (hb : bn 0 = 1) :
    ∀ (x : List ℚ), DSPFilters.lfilterGo bn an 1 [] x = x := by
  intro x
  induction x with
  | nil => rfl
  | cons xn rest ih =>
    simp only [DSPFilters.lfilterGo, hb, List.getD, List.range_zero, List.map_nil]
    norm_num
    exact ih

lemma lfilter_one_one (x : List ℚ) : DSPFilters.lfilter [1] [1] [] x = x := by
  unfold DSPFilters.lfilter
  simp only [List.length_singleton, max_self, Nat.sub_self, List.range_zero,
    List.map_nil]
  exact lfilterGo_identity _ _ (by norm_num) x

lemma filtfilt_one_one :
    DSPFilters.filtfilt [1] [1] [] [1, 2, 3, 4] = .ok [1, 2, 3, 4] := by
  have hext : DSPFilters.oddExt [1, 2, 3, 4] 3 =
      [-2, -1, 0, 1, 2, 3, 4, 5, 6, 7] := by
    norm_num [DSPFilters.oddExt, List.range_succ]
  simp only [DSPFilters.filtfilt, DSPFilters.padlen]
  norm_num [hext, lfilter_one_one]

/-- Witness for C5: a concrete low-pass call on a 4-sample buffer succeeds and
keeps the length; the equality is produced by C5 at that input. -/
theorem claim_C5_witness :
    DSPFilters.butterworth_lowpass [1] [1] [] 1000 [1, 2, 3, 4] 10 =
      .ok [1, 2, 3, 4] ∧
    ([1, 2, 3, 4] : List ℚ).length = ([1, 2, 3, 4] : List ℚ).length := by
  have hok : DSPFilters.butterworth_lowpass [1] [1] [] 1000 [1, 2, 3, 4] 10 =
      .ok [1, 2, 3, 4] := by
    rw [show DSPFilters.butterworth_lowpass [1] [1] [] 1000 [1, 2, 3, 4] 10 =
        DSPFilters.filtfilt [1] [1] [] [1, 2, 3, 4] from by
      norm_num [DSPFilters.butterworth_lowpass]]
    exact filtfilt_one_one
  exact ⟨hok, (claim_C5.1) [1] [1] [] 1000 [1, 2, 3, 4] 10 [1, 2, 3, 4] hok⟩

lemma getD_replicate (n : ℕ) (c : ℚ) (i : ℕ) (h : i < n) :
    (List.replicate n c).getD i 0 = c := by
  rw [List.getD_eq_getElem _ _ (by simpa using h)]
  simp

lemma convolveValid_const (M W : ℕ) (c : ℚ) (hW : 1 ≤ W) (hM : W ≤ M) :
    DSPFilters.convolveValid (List.replicate M c) (List.replicate W ((1:ℚ)/W)) =
      List.replicate (M + 1 - W) c := by
  unfold DSPFilters.convolveValid
  simp only [List.length_replicate]
  rw [List.eq_replicate_iff]
  refine ⟨by simp, ?_⟩
  intro b hb
  obtain ⟨i, hi, rfl⟩ := List.mem_map.mp hb
  have hiR := List.mem_range.mp hi
  have hconst : ((List.range W).map fun m =>
      (List.replicate M c).getD (i + m) 0 *
        (List.replicate W ((1:ℚ)/W)).getD (W - 1 - m) 0) =
      List.replicate W (c * ((1:ℚ)/W)) := by
    rw [List.eq_replicate_iff]
    refine ⟨by simp, ?_⟩
    intro b hb
    obtain ⟨m, hm, rfl⟩ := List.mem_map.mp hb
    have hmR := List.mem_range.mp hm
    rw [getD_replicate M c (i + m) (by omega), getD_replicate W _ (W - 1 - m) (by omega)]
  rw [hconst, List.sum_replicate, nsmul_eq_mul]
  have hWne : (W : ℚ) ≠ 0 := Nat.cast_ne_zero.mpr (by omega)
  field_simp

lemma moving_average_const (n W : ℕ) (c : ℚ) (hW : 1 ≤ W) (hn : 1 ≤ n) :
    DSPFilters.moving_average (List.replicate n c) W = .ok (List.replicate n c) := by
  unfold DSPFilters.moving_average
  rw [if_neg (by omega), if_neg (by simp [List.replicate_eq_nil_iff]; omega)]
  have h0 : (List.replicate n c).getD 0 0 = c := getD_replicate n c 0 (by omega)
  have h1 : (List.replicate n c).getD ((List.replicate n c).length - 1) 0 = c := by
    rw [List.length_replicate]
    exact getD_replicate n c (n - 1) (by omega)
  rw [h0, h1]
  rw [show List.replicate (W / 2) c ++ List.replicate n c ++ List.replicate (W / 2) c =
      List.replicate (W / 2 + n + W / 2) c from by
    rw [List.replicate_add, List.replicate_add]]
  simp only [List.length_replicate]
  rw [convolveValid_const (W / 2 + n + W / 2) W c hW (by omega)]
  rw [List.take_replicate, Nat.min_eq_left (by omega)]

/-- C6: for every positive window length the moving-average filter preserves
the buffer length (edge padding by `W//2` samples each side, then trimming to
the input length), and on a nonempty constant buffer it returns exactly the
same constant buffer — the padding introduces no edge artifacts. -/
theorem claim_C6 (W : ℕ) (hW : 1 ≤ W) :
    (∀ (data y : List ℚ),
      DSPFilters.moving_average data W = .ok y → y.length = data.length) ∧
    (∀ (n : ℕ) (c : ℚ), 1 ≤ n →
      DSPFilters.moving_average (List.replicate n c) W = .ok (List.replicate n c)) :=
  ⟨fun data y h => DSPFilters.moving_average_ok_length data W y h,
    fun n c hn => moving_average_const n W c hW hn⟩

/-- Witness for C6: an even window of length 4 over the constant buffer
`[5, 5, 5]` returns the same constant buffer. -/
theorem claim_C6_witness :
    DSPFilters.moving_average (List.replicate 3 (5:ℚ)) 4 =
      .ok (List.replicate 3 5) :=
  (claim_C6 4 (by decide)).2 3 5 (by decide)

lemma listMedian_mem (l : List ℚ) (h : l ≠ []) : DSPFilters.listMedian l ∈ l := by
  unfold DSPFilters.listMedian
  have hlen : (l.insertionSort (· ≤ ·)).length = l.length :=
    List.length_insertionSort _ l
  have hmid : l.length / 2 < (l.insertionSort (· ≤ ·)).length := by
    rw [hlen]
    have : l.length ≠ 0 := by simpa [List.length_eq_zero] using h
    omega
  rw [List.getD_eq_getElem _ _ hmid]
  exact (List.perm_insertionSort _ l).subset (List.getElem_mem hmid)

lemma sorted_le_median (l : List ℚ) (h : l ≠ []) :
    ∀ i (hi : i < (l.insertionSort (· ≤ ·)).length), i ≤ l.length / 2 →
      (l.insertionSort (· ≤ ·))[i] ≤ DSPFilters.listMedian l := by
  intro i hi hle
  have hlen : (l.insertionSort (· ≤ ·)).length = l.length :=
    List.length_insertionSort _ l
  have hmid : l.length / 2 < (l.insertionSort (· ≤ ·)).length := by
    rw [hlen]
    have : l.length ≠ 0 := by simpa [List.length_eq_zero] using h
    omega
  unfold DSPFilters.listMedian
  rw [List.getD_eq_getElem _ _ hmid]
  have := (List.sorted_insertionSort (· ≤ ·) l).rel_get_of_le
    (a := ⟨i, hi⟩) (b := ⟨l.length / 2, hmid⟩) (by simpa using hle)
  simpa using this

lemma median_le_sorted (l : List ℚ) (h : l ≠ []) :
    ∀ i (hi : i < (l.insertionSort (· ≤ ·)).length), l.length / 2 ≤ i →
      DSPFilters.listMedian l ≤ (l.insertionSort (· ≤ ·))[i] := by
  intro i hi hle
  have hlen : (l.insertionSort (· ≤ ·)).length = l.length :=
    List.length_insertionSort _ l
  have hmid : l.length / 2 < (l.insertionSort (· ≤ ·)).length := by
    rw [hlen]
    have : l.length ≠ 0 := by simpa [List.length_eq_zero] using h
    omega
  unfold DSPFilters.listMedian
  rw [List.getD_eq_getElem _ _ hmid]
  have := (List.sorted_insertionSort (· ≤ ·) l).rel_get_of_le
    (a := ⟨l.length / 2, hmid⟩) (b := ⟨i, hi⟩) (by simpa using hle)
  simpa using this

lemma listMedian_counts (l : List ℚ) (h : l ≠ []) :
    (l.length + 1) / 2 ≤
      (l.filter (fun v => decide (v ≤ DSPFilters.listMedian l))).length ∧
    (l.length + 1) / 2 ≤
      (l.filter (fun v => decide (DSPFilters.listMedian l ≤ v))).length := by
  have hlen : (l.insertionSort (· ≤ ·)).length = l.length :=
    List.length_insertionSort _ l
  have hne : l.length ≠ 0 := by simpa [List.length_eq_zero] using h
  constructor
  · rw [← List.countP_eq_length_filter,
      ← (List.perm_insertionSort (· ≤ ·) l).countP_eq]
    rw [← List.take_append_drop (l.length / 2 + 1) (l.insertionSort (· ≤ ·)),
      List.countP_append]
    have htake : List.countP (fun v => decide (v ≤ DSPFilters.listMedian l))
        (List.take (l.length / 2 + 1) (l.insertionSort (· ≤ ·))) =
        (List.take (l.length / 2 + 1) (l.insertionSort (· ≤ ·))).length := by
      rw [List.countP_eq_length]
      intro a ha
      obtain ⟨i, hi, rfl⟩ := List.getElem_of_mem ha
      rw [List.getElem_take]
      have hilen : i < (l.insertionSort (· ≤ ·)).length := by
        have := hi
        simp only [List.length_take] at this
        omega
      simpa using sorted_le_median l h i hilen (by
        have := hi
        simp only [List.length_take] at this
        omega)
    rw [htake]
    have : (List.take (l.length / 2 + 1) (l.insertionSort (· ≤ ·))).length =
        l.length / 2 + 1 := by
      simp only [List.length_take, hlen]
      omega
    rw [this]
    omega
  · rw [← List.countP_eq_length_filter,
      ← (List.perm_insertionSort (· ≤ ·) l).countP_eq]
    rw [← List.take_append_drop (l.length / 2) (l.insertionSort (· ≤ ·)),
      List.countP_append]
    have hdrop : List.countP (fun v => decide (DSPFilters.listMedian l ≤ v))
        (List.drop (l.length / 2) (l.insertionSort (· ≤ ·))) =
        (List.drop (l.length / 2) (l.insertionSort (· ≤ ·))).length := by
      rw [List.countP_eq_length]
      intro a ha
      obtain ⟨j, hj, rfl⟩ := List.getElem_of_mem ha
      rw [List.getElem_drop]
      have hjlen : l.length / 2 + j < (l.insertionSort (· ≤ ·)).length := by
        have := hj
        simp only [List.length_drop] at this
        omega
      simpa using median_le_sorted l h (l.length / 2 + j) hjlen (by omega)
    rw [hdrop]
    have : (List.drop (l.length / 2) (l.insertionSort (· ≤ ·))).length =
        l.length - l.length / 2 := by
      simp only [List.length_drop, hlen]
    rw [this]
    omega

lemma medfiltWindow_length (data : List ℚ) (W i : ℕ) :
    (DSPFilters.medfiltWindow data W i).length = W := by
  unfold DSPFilters.medfiltWindow
  rw [List.length_map, List.length_range]

/-- C7: the median filter rejects every even window length with an
invalid-parameter error (scipy's `medfilt` raises
`ValueError('Each element of kernel_size should be odd.')`); for every odd
window length it succeeds, preserves the length, and each output sample is
the median of the centered zero-padded window: a member of the window with at
least `(W+1)/2` window elements at or below it and at least `(W+1)/2` at or
above it. -/
theorem claim_C7 (data : List ℚ) (W : ℕ) :
    (W % 2 = 0 → DSPFilters.median_filter data W = .error .invalidParameter) ∧
    (W % 2 = 1 →
      ∃ y, DSPFilters.median_filter data W = .ok y ∧
        y.length = data.length ∧
        ∀ i < data.length,
          y.getD i 0 = DSPFilters.listMedian (DSPFilters.medfiltWindow data W i) ∧
          y.getD i 0 ∈ DSPFilters.medfiltWindow data W i ∧
          (W + 1) / 2 ≤ ((DSPFilters.medfiltWindow data W i).filter
            (fun v => decide (v ≤ y.getD i 0))).length ∧
          (W + 1) / 2 ≤ ((DSPFilters.medfiltWindow data W i).filter
            (fun v => decide (y.getD i 0 ≤ v))).length) := by
  constructor
  · intro heven
    unfold DSPFilters.median_filter
    rw [if_pos heven]
  · intro hodd
    refine ⟨(List.range data.length).map
      (fun i => DSPFilters.listMedian (DSPFilters.medfiltWindow data W i)), ?_, ?_, ?_⟩
    · unfold DSPFilters.median_filter
      rw [if_neg (by omega)]
    · simp
    · intro i hi
      have hgetD : ((List.range data.length).map
          (fun i => DSPFilters.listMedian (DSPFilters.medfiltWindow data W i))).getD i 0 =
          DSPFilters.listMedian (DSPFilters.medfiltWindow data W i) := by
        rw [List.getD_eq_getElem _ _ (by simpa using hi)]
        simp
      have hwne : DSPFilters.medfiltWindow data W i ≠ [] := by
        apply List.ne_nil_of_length_pos
        rw [medfiltWindow_length]
        omega
      have hcounts := listMedian_counts (DSPFilters.medfiltWindow data W i) hwne
      rw [medfiltWindow_length] at hcounts
      exact ⟨hgetD, hgetD ▸ listMedian_mem _ hwne,
        hgetD ▸ hcounts.1, hgetD ▸ hcounts.2⟩

/-- Witness for C7: window length 4 on `[1, 9, 2]` is rejected as an invalid
parameter; window length 3 succeeds with output `[1, 2, 2]`, each sample the
median of its centered zero-padded window. -/
theorem claim_C7_witness :
    DSPFilters.median_filter [1, 9, 2] 4 = .error .invalidParameter ∧
    DSPFilters.median_filter [1, 9, 2] 3 = .ok [1, 2, 2] ∧
    (∃ y, DSPFilters.median_filter [1, 9, 2] 3 = .ok y ∧
      y.length = ([1, 9, 2] : List ℚ).length ∧
      ∀ i < ([1, 9, 2] : List ℚ).length,
        y.getD i 0 = DSPFilters.listMedian (DSPFilters.medfiltWindow [1, 9, 2] 3 i) ∧
        y.getD i 0 ∈ DSPFilters.medfiltWindow [1, 9, 2] 3 i ∧
        (3 + 1) / 2 ≤ ((DSPFilters.medfiltWindow [1, 9, 2] 3 i).filter
          (fun v => decide (v ≤ y.getD i 0))).length ∧
        (3 + 1) / 2 ≤ ((DSPFilters.medfiltWindow [1, 9, 2] 3 i).filter
          (fun v => decide (y.getD i 0 ≤ v))).length) := by
  refine ⟨(claim_C7 [1, 9, 2] 4).1 (by decide), ?_,
    (claim_C7 [1, 9, 2] 3).2 (by decide)⟩
  unfold DSPFilters.median_filter
  rw [if_neg (by decide)]
  congr 1

lemma notch_at_nyquist (bc ac zi : List ℚ) (sr : ℚ) (data : List ℚ) (q : ℚ)
    (hsr : 0 < sr) :
    DSPFilters.notch_filter bc ac zi sr data (sr / 2) q =
      DSPFilters.filtfilt bc ac zi data := by
  have h2 : sr / 2 ≠ 0 := by positivity
  unfold DSPFilters.notch_filter
  simp only [div_self h2]
  rw [if_neg (by norm_num)]

/-- C8 (amended): with a positive sampling rate, every Butterworth low-pass,
high-pass or band-pass call whose cutoff is at or above the Nyquist frequency
fails with an invalid-parameter error, and a notch call fails for a notch
frequency strictly above Nyquist; but a notch frequency exactly equal to
Nyquist passes scipy's validation (`if w0 > 1.0 or w0 < 0.0`) and proceeds to
the zero-phase filtering stage instead of failing. -/
theorem claim_C8 (bc ac zi : List ℚ) (sr : ℚ) (data : List ℚ) (hsr : 0 < sr) :
    (∀ cutoff, sr / 2 ≤ cutoff →
      DSPFilters.butterworth_lowpass bc ac zi sr data cutoff =
        .error .invalidParameter) ∧
    (∀ cutoff, sr / 2 ≤ cutoff →
      DSPFilters.butterworth_highpass bc ac zi sr data cutoff =
        .error .invalidParameter) ∧
    (∀ lo hi, sr / 2 ≤ lo ∨ sr / 2 ≤ hi →
      DSPFilters.butterworth_bandpass bc ac zi sr data lo hi =
        .error .invalidParameter) ∧
    (∀ f q, sr / 2 < f →
      DSPFilters.notch_filter bc ac zi sr data f q =
        .error .invalidParameter) ∧
    (∀ q, DSPFilters.notch_filter bc ac zi sr data (sr / 2) q =
      DSPFilters.filtfilt bc ac zi data) := by
  have hnyq : (0:ℚ) < sr / 2 := by positivity
  refine ⟨?_, ?_, ?_, ?_, fun q => notch_at_nyquist bc ac zi sr data q hsr⟩
  · intro cutoff hc
    unfold DSPFilters.butterworth_lowpass
    rw [if_pos (Or.inr ((one_le_div hnyq).mpr hc))]
  · intro cutoff hc
    unfold DSPFilters.butterworth_highpass
    rw [if_pos (Or.inr ((one_le_div hnyq).mpr hc))]
  · intro lo hi hc
    unfold DSPFilters.butterworth_bandpass
    rcases hc with hc | hc
    · rw [if_pos (Or.inr (Or.inl ((one_le_div hnyq).mpr hc)))]
    · rw [if_pos (Or.inr (Or.inr (Or.inr ((one_le_div hnyq).mpr hc))))]
  · intro f q hc
    unfold DSPFilters.notch_filter
    rw [if_pos (Or.inl ((one_lt_div hnyq).mpr hc))]

/-- Counterexample for C8 as stated: a notch call whose notch frequency equals
the Nyquist frequency (500 Hz at a 1000 Hz sampling rate) does not fail — it
returns a filtered buffer. -/
theorem claim_C8_counterexample :
    DSPFilters.notch_filter [1] [1] [] 1000 [1, 2, 3, 4] 500 30 =
      .ok [1, 2, 3, 4] := by
  rw [show (500 : ℚ) = 1000 / 2 from by norm_num,
    notch_at_nyquist [1] [1] [] 1000 [1, 2, 3, 4] 30 (by norm_num)]
  exact filtfilt_one_one

/-- Witness for C8: concrete rejections at and above Nyquist for the
Butterworth paths, strict rejection above Nyquist for the notch, and the
boundary notch call proceeding to filtering. -/
theorem claim_C8_witness :
    DSPFilters.butterworth_lowpass [1] [1] [] 1000 [1, 2, 3, 4] 600 =
      .error .invalidParameter ∧
    DSPFilters.butterworth_highpass [1] [1] [] 1000 [1, 2, 3, 4] 500 =
      .error .invalidParameter ∧
    DSPFilters.butterworth_bandpass [1] [1] [] 1000 [1, 2, 3, 4] 1 700 =
      .error .invalidParameter ∧
    DSPFilters.notch_filter [1] [1] [] 1000 [1, 2, 3, 4] 501 30 =
      .error .invalidParameter ∧
    DSPFilters.notch_filter [1] [1] [] 1000 [1, 2, 3, 4] (1000 / 2) 30 =
      DSPFilters.filtfilt [1] [1] [] [1, 2, 3, 4] := by
  obtain ⟨h1, h2, h3, h4, h5⟩ := claim_C8 [1] [1] [] 1000 [1, 2, 3, 4] (by norm_num)
  exact ⟨h1 600 (by norm_num), h2 500 (by norm_num),
    h3 1 700 (Or.inr (by norm_num)), h4 501 30 (by norm_num), h5 30⟩

/- ------------------------------------------------------------------
   FFTAnalyzer.compute_psd / spectral_entropy (fft_analyzer.py lines
   45-60 and 134-156).  `compute_psd` delegates to
   `scipy.signal.welch(signal_data, fs, nperseg=256)`, embedded from the
   Welch algorithm with scipy's defaults: segment length truncated to the
   buffer length, 50% overlap, per-segment constant detrend, periodic
   Hann window, one-sided spectrum with density scaling
   `1/(fs·Σ win²)`, interior bins doubled, periodograms averaged.
   These definitions live over ℝ/ℂ because the window and the DFT
   kernel are transcendental.  `spectral_entropy`'s unguarded float
   division is modelled with `Option ℝ`: `none` stands for a non-real
   IEEE result (NaN or ±inf); NaN compares false against 0, as in
   numpy.
   ------------------------------------------------------------------ -/

namespace FFTAnalyzer

/-- Periodic Hann window `scipy.signal.get_window('hann', M)`
(`0.5 - 0.5·cos(2πn/M)`; lengths 0 and 1 are all-ones by scipy's
`_len_guards`). -/
noncomputable def hannPeriodic (M : ℕ) : List ℝ :=
  if M ≤ 1 then List.replicate M 1
  else (List.range M).map fun (j : ℕ) =>
    1/2 - 1/2 * Real.cos (2 * Real.pi * j / M)

/-- The segment of `x` of length `m` starting at `start`. -/
def segAt (x : List ℝ) (m start : ℕ) : List ℝ :=
  (x.drop start).take m

/-- Constant detrend of one segment (`detrend='constant'`): subtract the
segment mean. -/
noncomputable def detrendConst (seg : List ℝ) : List ℝ :=
  seg.map fun v => v - seg.sum / seg.length

/-- One DFT bin of the windowed segment `w` of nominal length `m`:
`X_q = Σ_j w_j · e^(-2πi·j·q/m)`. -/
noncomputable def dftBin (w : List ℝ) (m q : ℕ) : ℂ :=
  ∑ j ∈ Finset.range m,
    (w.getD j 0 : ℂ) * Complex.exp (-(2 * (Real.pi : ℂ) * Complex.I * j * q) / m)

/-- The one-sided density-scaled periodogram of one segment: bins
`q = 0 … m/2`, value `scale·|X_q|²`, doubled except at DC and (for even
`m`) at the Nyquist bin. -/
noncomputable def periodogram (seg win : List ℝ) (m : ℕ) (scale : ℝ) : List ℝ :=
  (List.range (m / 2 + 1)).map fun q =>
    let p := scale * Complex.normSq (dftBin (List.zipWith (· * ·) win (detrendConst seg)) m q)
    if q = 0 ∨ (m % 2 = 0 ∧ q = m / 2) then p else 2 * p

/-- `FFTAnalyzer.compute_psd(signal_data, nperseg)` =
`scipy.signal.welch(signal_data, fs, nperseg)`: returns the one-sided
frequency bins and the mean of the per-segment periodograms. -/
noncomputable def compute_psd (x : List ℝ) (fs : ℝ) (nperseg : ℕ) :
    List ℝ × List ℝ :=
  let n := x.length
  let m := min nperseg n
  let noverlap := m / 2
  let step := m - noverlap
  let nseg := (n - m) / step + 1
  let win := hannPeriodic m
  let scale := 1 / (fs * (win.map fun v => v * v).sum)
  let freqs := (List.range (m / 2 + 1)).map fun q => (q : ℝ) * fs / m
  let segs := (List.range nseg).map fun s => periodogram (segAt x m (s * step)) win m scale
  let psd := (List.range (m / 2 + 1)).map fun q =>
    (segs.map fun p => p.getD q 0).sum / nseg
  (freqs, psd)

/-- IEEE float division into the NaN/∞ model: dividing by zero never yields a
real number (`0/0` is NaN, `x/0` is `±inf`), so the result is `none`. -/
noncomputable def fdiv (a b : ℝ) : Option ℝ :=
  if b = 0 then none else some (a / b)

/-- NaN-propagating product. -/
def fmul : Option ℝ → Option ℝ → Option ℝ
  | some a, some b => some (a * b)
  | _, _ => none

/-- `np.log2` in the float model: defined (real) only for positive inputs
(`log2 0 = -inf`, `log2` of a negative is NaN). -/
noncomputable def flog2 : Option ℝ → Option ℝ
  | some p => if 0 < p then some (Real.logb 2 p) else none
  | none => none

/-- The boolean mask `psd_norm > 0` of numpy: a NaN entry compares false. -/
noncomputable def fisPos : Option ℝ → Bool
  | some v => decide (0 < v)
  | none => false

/-- NaN-propagating sum (`np.sum`; the empty sum is `0.0`). -/
def fsum : List (Option ℝ) → Option ℝ :=
  List.foldr (fun a acc =>
    match a, acc with
    | some x, some y => some (x + y)
    | _, _ => none) (some 0)

/-- NaN-propagating negation. -/
def fneg : Option ℝ → Option ℝ
  | some a => some (-a)
  | none => none

/-- `FFTAnalyzer.spectral_entropy(signal_data)`: Welch PSD with the default
`nperseg=256`, `psd_norm = psd / np.sum(psd)` with no zero guard,
`psd_norm = psd_norm[psd_norm > 0]`, and
`entropy = -np.sum(psd_norm * np.log2(psd_norm))`. -/
noncomputable def spectral_entropy (x : List ℝ) (fs : ℝ) : Option ℝ :=
  let psd := (compute_psd x fs 256).2
  let s := psd.sum
  let psdNorm := psd.map fun p => fdiv p s
  let pos := psdNorm.filter fisPos
  fneg (fsum (pos.map fun q => fmul q (flog2 q)))

end FFTAnalyzer

namespace FFTAnalyzer

lemma getD_replicate_zero (K i : ℕ) : (List.replicate K (0:ℝ)).getD i 0 = 0 := by
  by_cases h : i < K
  · rw [List.getD_eq_getElem _ _ (by simpa using h)]
    simp
  · rw [List.getD_eq_default _ _ (by simpa using h)]

lemma detrendConst_zero (j : ℕ) :
    detrendConst (List.replicate j (0:ℝ)) = List.replicate j 0 := by
  unfold detrendConst
  rw [List.map_replicate]
  congr 1
  rw [List.sum_replicate]
  simp

lemma getD_zipWith_zero (win : List ℝ) (j i : ℕ) :
    (List.zipWith (· * ·) win (List.replicate j (0:ℝ))).getD i 0 = 0 := by
  by_cases h : i < (List.zipWith (· * ·) win (List.replicate j (0:ℝ))).length
  · rw [List.getD_eq_getElem _ _ h, List.getElem_zipWith]
    have hj : i < j := by
      simp only [List.length_zipWith, List.length_replicate] at h
      omega
    rw [List.getElem_replicate]
    exact mul_zero _
  · rw [List.getD_eq_default _ _ (by omega)]

lemma dftBin_zero (w : List ℝ) (hw : ∀ i, w.getD i 0 = 0) (m q : ℕ) :
    dftBin w m q = 0 := by
  unfold dftBin
  apply Finset.sum_eq_zero
  intro j _
  rw [hw j]
  simp

lemma periodogram_zero (j : ℕ) (win : List ℝ) (m : ℕ) (scale : ℝ) :
    periodogram (List.replicate j 0) win m scale = List.replicate (m / 2 + 1) 0 := by
  unfold periodogram
  rw [detrendConst_zero]
  rw [List.eq_replicate_iff]
  refine ⟨by simp, ?_⟩
  intro b hb
  obtain ⟨q, hq, rfl⟩ := List.mem_map.mp hb
  rw [dftBin_zero _ (getD_zipWith_zero win j) m q]
  simp

lemma segAt_replicate (n m start : ℕ) :
    segAt (List.replicate n (0:ℝ)) m start = List.replicate (min m (n - start)) 0 := by
  unfold segAt
  rw [List.drop_replicate, List.take_replicate]

lemma compute_psd_zero (n : ℕ) (fs : ℝ) (k : ℕ) :
    (compute_psd (List.replicate n 0) fs k).2 =
      List.replicate (min k n / 2 + 1) 0 := by
  unfold compute_psd
  simp only [List.length_replicate]
  rw [List.eq_replicate_iff]
  refine ⟨by simp, ?_⟩
  intro b hb
  obtain ⟨q, hq, rfl⟩ := List.mem_map.mp hb
  have hz : (((List.range ((n - min k n) / (min k n - min k n / 2) + 1)).map
      fun s => periodogram (segAt (List.replicate n (0:ℝ)) (min k n)
        (s * (min k n - min k n / 2))) (hannPeriodic (min k n)) (min k n)
        (1 / (fs * ((hannPeriodic (min k n)).map fun v => v * v).sum))).map
      fun p => p.getD q 0).sum = 0 := by
    apply List.sum_eq_zero
    intro v hv
    obtain ⟨p, hp, rfl⟩ := List.mem_map.mp hv
    obtain ⟨s, hs, rfl⟩ := List.mem_map.mp hp
    rw [segAt_replicate, periodogram_zero, getD_replicate_zero]
  rw [hz]
  simp

lemma fsum_map_some (l : List ℝ) : fsum (l.map some) = some l.sum := by
  induction l with
  | nil => rfl
  | cons a l ih =>
    simp only [List.map_cons, fsum, List.foldr_cons]
    rw [show List.foldr _ (some 0) (l.map some) = fsum (l.map some) from rfl, ih]
    simp

lemma filter_fisPos_map_some (l : List ℝ) :
    (l.map some).filter fisPos = (l.filter fun v => decide (0 < v)).map some := by
  induction l with
  | nil => rfl
  | cons a l ih =>
    by_cases h : 0 < a
    · simp [List.filter_cons, fisPos, h, ih]
    · simp [List.filter_cons, fisPos, h, ih]

end FFTAnalyzer

namespace FFTAnalyzer

lemma spectral_entropy_pos_sum (x : List ℝ) (fs : ℝ)
    (h : 0 < ((compute_psd x fs 256).2).sum) :
    spectral_entropy x fs =
      some (-(((((compute_psd x fs 256).2).map
          (fun p => p / ((compute_psd x fs 256).2).sum)).filter
          (fun v => decide (0 < v))).map (fun v => v * Real.logb 2 v)).sum) := by
  have hs : ((compute_psd x fs 256).2).sum ≠ 0 := ne_of_gt h
  simp only [spectral_entropy]
  have h1 : ((compute_psd x fs 256).2).map
      (fun p => fdiv p ((compute_psd x fs 256).2).sum) =
      (((compute_psd x fs 256).2).map
        (fun p => p / ((compute_psd x fs 256).2).sum)).map some := by
    rw [List.map_map]
    apply List.map_congr_left
    intro p _
    simp only [Function.comp_apply, fdiv, if_neg hs]
  rw [h1, filter_fisPos_map_some]
  have h2 : (((((compute_psd x fs 256).2).map
      (fun p => p / ((compute_psd x fs 256).2).sum)).filter
      (fun v => decide (0 < v))).map some).map (fun q => fmul q (flog2 q)) =
      (((((compute_psd x fs 256).2).map
        (fun p => p / ((compute_psd x fs 256).2).sum)).filter
        (fun v => decide (0 < v))).map (fun v => v * Real.logb 2 v)).map some := by
    rw [List.map_map, List.map_map]
    apply List.map_congr_left
    intro v hv
    have hv' : 0 < v := by simpa using (List.mem_filter.mp hv).2
    simp only [Function.comp_apply, fmul, flog2, if_pos hv']
  rw [h2, fsum_map_some]
  rfl

lemma spectral_entropy_zero_buffer (n : ℕ) (fs : ℝ) :
    spectral_entropy (List.replicate n 0) fs = some 0 := by
  simp only [spectral_entropy, compute_psd_zero]
  rw [List.sum_replicate, smul_zero]
  rw [show (List.replicate (min 256 n / 2 + 1) (0:ℝ)).map (fun p => fdiv p 0) =
      List.replicate (min 256 n / 2 + 1) none from by
    rw [List.map_replicate]
    congr 1
    simp [fdiv]]
  rw [show List.filter fisPos (List.replicate (min 256 n / 2 + 1) none) = []
      from by
    apply List.filter_eq_nil_iff.mpr
    intro a ha
    rw [List.eq_of_mem_replicate ha]
    simp [fisPos]]
  simp [fsum, fneg]

end FFTAnalyzer

namespace FFTAnalyzer

lemma hannPeriodic_two : hannPeriodic 2 = [0, 1] := by
  unfold hannPeriodic
  rw [if_neg (by norm_num)]
  rw [show List.range 2 = [0, 1] from by simp [List.range_succ]]
  simp only [List.map_cons, List.map_nil]
  congr 1
  · rw [show 2 * Real.pi * (0:ℕ) / (2:ℕ) = 0 from by push_cast; ring]
    rw [Real.cos_zero]
    norm_num
  · congr 1
    rw [show 2 * Real.pi * (1:ℕ) / (2:ℕ) = Real.pi from by push_cast; ring]
    rw [Real.cos_pi]
    norm_num

lemma dftBin_example_zero : dftBin [0, -1] 2 0 = -1 := by
  unfold dftBin
  rw [Finset.sum_range_succ, Finset.sum_range_succ, Finset.sum_range_zero]
  rw [show (([0, -1] : List ℝ).getD 0 0 : ℂ) = 0 from by norm_num]
  rw [show (([0, -1] : List ℝ).getD 1 0 : ℂ) = -1 from by norm_num]
  rw [show -(2 * (Real.pi : ℂ) * Complex.I * (0:ℕ) * (0:ℕ)) / (2:ℕ) = 0 from by
    push_cast; ring]
  rw [show -(2 * (Real.pi : ℂ) * Complex.I * (1:ℕ) * (0:ℕ)) / (2:ℕ) = 0 from by
    push_cast; ring]
  rw [Complex.exp_zero]
  ring

lemma dftBin_example_one : dftBin [0, -1] 2 1 = 1 := by
  unfold dftBin
  rw [Finset.sum_range_succ, Finset.sum_range_succ, Finset.sum_range_zero]
  rw [show (([0, -1] : List ℝ).getD 0 0 : ℂ) = 0 from by norm_num]
  rw [show (([0, -1] : List ℝ).getD 1 0 : ℂ) = -1 from by norm_num]
  rw [show -(2 * (Real.pi : ℂ) * Complex.I * (1:ℕ) * (1:ℕ)) / (2:ℕ) =
      -((Real.pi : ℂ) * Complex.I) from by push_cast; ring]
  rw [Complex.exp_neg, Complex.exp_pi_mul_I]
  norm_num

lemma detrendConst_example : detrendConst [1, -1] = [1, -1] := by
  unfold detrendConst
  norm_num

lemma periodogram_example :
    periodogram [1, -1] [0, 1] 2 (1/2) = [1/2, 1/2] := by
  unfold periodogram
  rw [detrendConst_example]
  rw [show List.zipWith (· * ·) ([0, 1] : List ℝ) [1, -1] = [0, -1] from by
    norm_num]
  rw [show List.range (2 / 2 + 1) = [0, 1] from by simp [List.range_succ]]
  simp only [List.map_cons, List.map_nil]
  rw [dftBin_example_zero, dftBin_example_one]
  norm_num [Complex.normSq_neg, Complex.normSq_one]

lemma compute_psd_example :
    (compute_psd [1, -1] 2 256).2 = [1/2, 1/2] := by
  unfold compute_psd
  simp only [List.length_cons, List.length_nil]
  norm_num
  rw [hannPeriodic_two]
  rw [show List.range 1 = [0] from by simp [List.range_succ]]
  rw [show List.range 2 = [0, 1] from by simp [List.range_succ]]
  simp only [List.map_cons, List.map_nil, Function.comp_apply]
  rw [show ([0 * 0, 1 * 1] : List ℝ).sum⁻¹ * (1/2) = (1:ℝ)/2 from by norm_num]
  rw [show segAt [1, -1] 2 0 = [1, -1] from rfl]
  rw [periodogram_example]
  norm_num

end FFTAnalyzer

/-- C10 (amended): `spectral_entropy` normalizes the PSD with no zero guard.
Whenever the PSD sums to a positive value the result is the Shannon entropy
in bits, `-Σ p·log2 p` over the strictly positive normalized bins.  For an
all-zero input buffer the PSD sums to zero and every normalized bin is the
ill-defined `0/0` (NaN, modelled `none`); however the strict-positivity mask
`psd_norm[psd_norm > 0]` drops every NaN bin, so the function returns the
well-defined value `-0.0 = 0` rather than an undefined result. -/
theorem claim_C10 :
    (∀ (x : List ℝ) (fs : ℝ),
      0 < ((FFTAnalyzer.compute_psd x fs 256).2).sum →
      FFTAnalyzer.spectral_entropy x fs =
        some (-(((((FFTAnalyzer.compute_psd x fs 256).2).map
            (fun p => p / ((FFTAnalyzer.compute_psd x fs 256).2).sum)).filter
            (fun v => decide (0 < v))).map (fun v => v * Real.logb 2 v)).sum)) ∧
    (∀ (n : ℕ) (fs : ℝ), 0 < n →
      ((FFTAnalyzer.compute_psd (List.replicate n 0) fs 256).2).sum = 0 ∧
      (∀ q ∈ ((FFTAnalyzer.compute_psd (List.replicate n 0) fs 256).2).map
          (fun p => FFTAnalyzer.fdiv p
            ((FFTAnalyzer.compute_psd (List.replicate n 0) fs 256).2).sum),
        q = none) ∧
      FFTAnalyzer.spectral_entropy (List.replicate n 0) fs = some 0) := by
  refine ⟨FFTAnalyzer.spectral_entropy_pos_sum, ?_⟩
  intro n fs _
  have hsum : ((FFTAnalyzer.compute_psd (List.replicate n 0) fs 256).2).sum = 0 := by
    rw [FFTAnalyzer.compute_psd_zero, List.sum_replicate, smul_zero]
  refine ⟨hsum, ?_, FFTAnalyzer.spectral_entropy_zero_buffer n fs⟩
  intro q hq
  obtain ⟨p, hp, rfl⟩ := List.mem_map.mp hq
  rw [FFTAnalyzer.compute_psd_zero] at hp
  rw [List.eq_of_mem_replicate hp, hsum]
  simp [FFTAnalyzer.fdiv]

/-- Counterexample for C10 as stated: on the all-zero 4-sample buffer the PSD
sums to zero, yet `spectral_entropy` evaluates to the well-defined real
number 0 (float `-0.0`), not to an undefined value. -/
theorem claim_C10_counterexample :
    ((FFTAnalyzer.compute_psd (List.replicate 4 (0:ℝ)) 500 256).2).sum = 0 ∧
    FFTAnalyzer.spectral_entropy (List.replicate 4 (0:ℝ)) 500 = some 0 := by
  constructor
  · rw [FFTAnalyzer.compute_psd_zero, List.sum_replicate, smul_zero]
  · exact FFTAnalyzer.spectral_entropy_zero_buffer 4 500

/-- Witness for C10: the buffer `[1, -1]` at 2 Hz has PSD `[1/2, 1/2]` with
positive sum, so the entropy equals the Shannon formula there; the all-zero
4-sample buffer exhibits the zero-sum branch. -/
theorem claim_C10_witness :
    (0 < ((FFTAnalyzer.compute_psd [1, -1] 2 256).2).sum ∧
      FFTAnalyzer.spectral_entropy [1, -1] 2 =
        some (-(((((FFTAnalyzer.compute_psd [1, -1] 2 256).2).map
            (fun p => p / ((FFTAnalyzer.compute_psd [1, -1] 2 256).2).sum)).filter
            (fun v => decide (0 < v))).map (fun v => v * Real.logb 2 v)).sum)) ∧
    ((0:ℕ) < 4 ∧
      ((FFTAnalyzer.compute_psd (List.replicate 4 (0:ℝ)) 500 256).2).sum = 0 ∧
      (∀ q ∈ ((FFTAnalyzer.compute_psd (List.replicate 4 (0:ℝ)) 500 256).2).map
          (fun p => FFTAnalyzer.fdiv p
            ((FFTAnalyzer.compute_psd (List.replicate 4 (0:ℝ)) 500 256).2).sum),
        q = none) ∧
      FFTAnalyzer.spectral_entropy (List.replicate 4 (0:ℝ)) 500 = some 0) := by
  have hpos : 0 < ((FFTAnalyzer.compute_psd [1, -1] 2 256).2).sum := by
    rw [FFTAnalyzer.compute_psd_example]
    norm_num
  exact ⟨⟨hpos, claim_C10.1 [1, -1] 2 hpos⟩,
    ⟨by norm_num, claim_C10.2 4 500 (by norm_num)⟩⟩
